import Mathlib

/-!
Verification of the `tranche` branch-promotion engine.

Shallow embedding of the two Rust variants:
* `src/glisse.rs`  — owned `Box` chain of `Branch` nodes, JSON step log;
* `src/glisse3.rs` — `Rc<RefCell>` shared chain, line-oriented text step log.

External effects (git subprocess calls, the durable state file) are modelled
by an oracle of responses and an explicit event trace; the durable step log is
carried as part of the execution state.
-/

set_option maxHeartbeats 1000000

namespace Tranche

/-- A stage of the pipeline, as the engine observes it: a branch name plus the
ordered list of hooks attached to it.  Hook bodies are opaque; each hook is
identified by an abstract handle (`Nat`). -/
structure Stage where
  name : String
  hooks : List Nat
  deriving Repr, DecidableEq

/-- `MergeStep` from both sources: the durable record of one attempted
transition (`target_branch`, `original_sha`, `tags_created`). -/
structure MergeStep where
  target_branch : String
  original_sha : String
  tags_created : List String
  deriving Repr, DecidableEq

/-- Observable events of a run: every git subprocess invocation, every persist
of the step log, every hook invocation, and the removal of the log file. -/
inductive Event where
  | getTags (tags : List String)
  | getSha (branch : String) (result : String)
  | save (hist : List MergeStep)
  | checkout (branch : String) (ok : Bool)
  | merge (source : String) (ok : Bool)
  | hookRun (hook : Nat) (step : MergeStep) (source : String)
  | deleteTag (tag : String) (ok : Bool)
  | resetHard (branch : String) (sha : String) (ok : Bool)
  | removeLog
  deriving Repr, DecidableEq

/-! ### Stage chains

`glisse.rs`: `Branch { name, hooks, next_branch : Option<Box<Branch>> }` —
a simply owned recursive chain. -/

/-- The owned chain of `glisse.rs`. -/
inductive BranchG where
  | node (name : String) (hooks : List Nat) (next : Option BranchG)

/-- `glisse.rs::get_pipeline`: follow `next_branch` links from the start node,
collecting the stages in order. -/
def get_pipelineG : BranchG → List Stage
  | .node n h none => [⟨n, h⟩]
  | .node n h (some b) => ⟨n, h⟩ :: get_pipelineG b

/-- Number of nodes of an owned chain. -/
def BranchG.len : BranchG → Nat
  | .node _ _ none => 1
  | .node _ _ (some b) => 1 + b.len

/-! `glisse3.rs`: `Branch { name, hooks, next_branch : Option<Rc<RefCell<Branch>>> }`.
The `Rc` cells are modelled as indices into an explicit heap of nodes. -/

/-- One heap cell of the `glisse3.rs` chain; `next` is an `Rc` pointer,
modelled as a heap index. -/
structure BranchR where
  name : String
  hooks : List Nat
  next : Option Nat
  deriving Repr, DecidableEq

/-- The heap of `Rc<RefCell<Branch>>` cells. -/
structure Heap where
  nodes : List BranchR
  deriving Repr, DecidableEq

/-- `glisse3.rs::get_pipeline`: follow `next_branch` pointers from `start`.
The Rust loop does not terminate on a cyclic chain; the embedding uses fuel
and returns `none` when the fuel runs out or a pointer dangles. -/
def get_pipeline3 (h : Heap) : Nat → Nat → Option (List Stage)
  | 0, _ => none
  | fuel + 1, i =>
    match h.nodes[i]? with
    | none => none
    | some b =>
      match b.next with
      | none => some [⟨b.name, b.hooks⟩]
      | some j => (get_pipeline3 h fuel j).map (⟨b.name, b.hooks⟩ :: ·)

/-- The heap chain rooted at `i` represents the owned chain `b`: same names,
same hooks, same links, node for node. -/
inductive ChainRepr (h : Heap) : BranchG → Nat → Prop where
  | last (i : Nat) (n : String) (hk : List Nat) :
      h.nodes[i]? = some ⟨n, hk, none⟩ → ChainRepr h (.node n hk none) i
  | cons (i j : Nat) (n : String) (hk : List Nat) (b : BranchG) :
      h.nodes[i]? = some ⟨n, hk, some j⟩ → ChainRepr h b j →
      ChainRepr h (.node n hk (some b)) i

/-! ### The VCS oracle

Each transition makes five external calls, in this order: `git tag` (pre),
`git rev-parse <target>`, `git checkout <target>`, `git merge <source> --no-ff`,
`git tag` (post).  The oracle fixes the responses per transition index. -/

/-- Responses of the version-control tool for one transition. -/
structure TransOracle where
  preTags : List String
  shaExit : Bool
  shaOut : String
  checkoutOk : Bool
  mergeOk : Bool
  postTags : List String

/-- Rust `char::is_whitespace`, restricted to the ASCII whitespace that can
occur in the tool's output. -/
def isWS (c : Char) : Bool :=
  c = ' ' || c = '\x09' || c = '\x0a' || c = '\x0d'

/-- Rust `str::trim`: remove leading and trailing whitespace. -/
def trimChars (l : List Char) : List Char :=
  ((l.dropWhile isWS).reverse.dropWhile isWS).reverse

/-- `get_sha` from both sources: run `git rev-parse branch`, take the raw
stdout, trim it.  The exit status (`shaExit`) is never consulted. -/
def get_sha (o : TransOracle) : String :=
  String.mk (trimChars o.shaOut.data)

/-- `post_tags.difference(&pre_tags)` on `HashSet<String>`, collected to a
vector: the set difference of the tag listings (each listing deduplicated by
`collect::<HashSet<_>>`). -/
def tags_diff (post pre : List String) : List String :=
  (post.filter (fun t => t ∉ pre)).dedup

/-! ### Forward execution -/

/-- Mutable state threaded through a run: the in-memory history, the durable
step-log content (abstractly, the list of records it holds; `none` = no file),
and the trace of observable events so far. -/
structure ExecSt where
  history : List MergeStep
  durable : Option (List MergeStep)
  events : List Event
  deriving Repr, DecidableEq

/-- Outcome of a forward run: normal completion, or `exit(1)` on a fatal
checkout/merge failure. -/
inductive ExecOut where
  | completed (s : ExecSt)
  | fatal (s : ExecSt)
  deriving Repr, DecidableEq

/-- The state carried by either outcome. -/
def ExecOut.st : ExecOut → ExecSt
  | .completed s => s
  | .fatal s => s

/-- One iteration of the `glisse.rs::execute` loop, for the pair
`(src, tgt) = (pipeline[i], pipeline[i+1])`: pre-capture tags and SHA, push and
persist the provisional step, checkout, merge (either failure is fatal),
post-capture tags, finalize and re-persist the step, run the target's hooks.
`Sum.inl` continues the loop, `Sum.inr` is `exit(1)`. -/
def runTransitionG (o : TransOracle) (src tgt : Stage) (s : ExecSt) : ExecSt ⊕ ExecSt :=
  let sha := get_sha o
  let step0 : MergeStep := ⟨tgt.name, sha, []⟩
  let hist1 := s.history ++ [step0]
  let s1 : ExecSt :=
    ⟨hist1, some hist1,
      s.events ++ [Event.getTags o.preTags, Event.getSha tgt.name sha, Event.save hist1]⟩
  if o.checkoutOk then
    let s2 := { s1 with events := s1.events ++ [Event.checkout tgt.name true] }
    if o.mergeOk then
      let s3 := { s2 with events := s2.events ++ [Event.merge src.name true] }
      let created := tags_diff o.postTags o.preTags
      let stepF : MergeStep := ⟨tgt.name, sha, created⟩
      let hist2 := s.history ++ [stepF]
      Sum.inl ⟨hist2, some hist2,
        s3.events ++ [Event.getTags o.postTags, Event.save hist2]
          ++ tgt.hooks.map (fun k => Event.hookRun k stepF src.name)⟩
    else
      Sum.inr { s2 with events := s2.events ++ [Event.merge src.name false] }
  else
    Sum.inr { s1 with events := s1.events ++ [Event.checkout tgt.name false] }

/-- The `glisse.rs::execute` loop over the adjacent pairs of the pipeline,
`i` being the index of the current transition. -/
def execLoopG (o : Nat → TransOracle) : Nat → List (Stage × Stage) → ExecSt → ExecOut
  | _, [], s => .completed s
  | i, (src, tgt) :: rest, s =>
    match runTransitionG (o i) src tgt s with
    | .inl s' => execLoopG o (i + 1) rest s'
    | .inr s' => .fatal s'

/-- The adjacent pairs `(pipeline[i], pipeline[i+1])` for `i in 0..len-1`. -/
def transitions (p : List Stage) : List (Stage × Stage) :=
  p.zip p.tail

/-- `glisse.rs::execute`: materialize the pipeline and run every transition in
order, starting from an empty history and durable content `d`. -/
def executeG (chain : BranchG) (o : Nat → TransOracle) (d : Option (List MergeStep)) : ExecOut :=
  execLoopG o 0 (transitions (get_pipelineG chain)) ⟨[], d, []⟩

/-- One iteration of the `glisse3.rs::execute` loop (textually the same
procedure as in `glisse.rs`, acting on the borrowed `Rc<RefCell>` nodes). -/
def runTransition3 (o : TransOracle) (src tgt : Stage) (s : ExecSt) : ExecSt ⊕ ExecSt :=
  let sha := get_sha o
  let step0 : MergeStep := ⟨tgt.name, sha, []⟩
  let hist1 := s.history ++ [step0]
  let s1 : ExecSt :=
    ⟨hist1, some hist1,
      s.events ++ [Event.getTags o.preTags, Event.getSha tgt.name sha, Event.save hist1]⟩
  if o.checkoutOk then
    let s2 := { s1 with events := s1.events ++ [Event.checkout tgt.name true] }
    if o.mergeOk then
      let s3 := { s2 with events := s2.events ++ [Event.merge src.name true] }
      let created := tags_diff o.postTags o.preTags
      let stepF : MergeStep := ⟨tgt.name, sha, created⟩
      let hist2 := s.history ++ [stepF]
      Sum.inl ⟨hist2, some hist2,
        s3.events ++ [Event.getTags o.postTags, Event.save hist2]
          ++ tgt.hooks.map (fun k => Event.hookRun k stepF src.name)⟩
    else
      Sum.inr { s2 with events := s2.events ++ [Event.merge src.name false] }
  else
    Sum.inr { s1 with events := s1.events ++ [Event.checkout tgt.name false] }

/-- The `glisse3.rs::execute` loop. -/
def execLoop3 (o : Nat → TransOracle) : Nat → List (Stage × Stage) → ExecSt → ExecOut
  | _, [], s => .completed s
  | i, (src, tgt) :: rest, s =>
    match runTransition3 (o i) src tgt s with
    | .inl s' => execLoop3 o (i + 1) rest s'
    | .inr s' => .fatal s'

/-- `glisse3.rs::execute`: materialize the pipeline from the heap (with fuel)
and run it; `none` when pipeline materialization does not terminate. -/
def execute3 (h : Heap) (start fuel : Nat) (o : Nat → TransOracle)
    (d : Option (List MergeStep)) : Option ExecOut :=
  (get_pipeline3 h fuel start).map (fun p => execLoop3 o 0 (transitions p) ⟨[], d, []⟩)

/-! ### Undo (`unwind`)

All git results on the undo path are discarded (`let _ = self.git(...)`); the
oracle below fixes the success of each such call so that the trace can record
it and independence from it can be stated. -/

/-- Success of each best-effort git call made during undo. -/
structure UndoOracle where
  delTagOk : String → Bool
  checkoutOk : String → Bool
  resetOk : String → String → Bool

/-- The undo operations for one `MergeStep`: delete each created tag in order,
check out the target branch, hard-reset it to the recorded SHA. -/
def undoStepEvents (u : UndoOracle) (step : MergeStep) : List Event :=
  step.tags_created.map (fun t => Event.deleteTag t (u.delTagOk t))
    ++ [Event.checkout step.target_branch (u.checkoutOk step.target_branch),
        Event.resetHard step.target_branch step.original_sha
          (u.resetOk step.target_branch step.original_sha)]

/-- `glisse.rs::unwind`: if the state file does not exist, print
"Nothing to unwind" and return; otherwise load the steps, roll each back in
reverse order, and remove the state file.  Returns the events and the durable
content afterwards. -/
def unwindG (d : Option (List MergeStep)) (u : UndoOracle) :
    List Event × Option (List MergeStep) :=
  match d with
  | none => ([], none)
  | some steps => ((steps.reverse.map (undoStepEvents u)).flatten ++ [Event.removeLog], none)

/-- `glisse3.rs::unwind`: load the steps (`load_state` yields `[]` when the
file is missing); if empty, print "Nothing to unwind" and return without
touching the file; otherwise roll back in reverse order and remove the file. -/
def unwind3 (d : Option (List MergeStep)) (u : UndoOracle) :
    List Event × Option (List MergeStep) :=
  let steps := d.getD []
  if steps.isEmpty then ([], d)
  else ((steps.reverse.map (undoStepEvents u)).flatten ++ [Event.removeLog], none)

/-! ### The `glisse3.rs` durable text format

`save_state` writes one line per step: `target_branch ' ' original_sha ' '
tags.flatten(",")`, each line terminated by `'\n'` (`writeln!`).  `load_state`
reads the file back with `BufRead::lines`, `splitn(3, ' ')` and `split(',')`.
Files are modelled as `List Char`. -/

/-- Rust `str::splitn(2, c)` behaviour used for taking one field: `none` when
`c` does not occur, otherwise the part before the first `c` and the rest. -/
def splitFirst (c : Char) : List Char → Option (List Char × List Char)
  | [] => none
  | a :: rest =>
    if a = c then some ([], rest)
    else
      match splitFirst c rest with
      | none => none
      | some (p, q) => some (a :: p, q)

/-- Rust `str::split(c)`: the segments between occurrences of `c`, empty
segments included (`"".split(c)` is `[""]`). -/
def splitAll (c : Char) : List Char → List (List Char)
  | [] => [[]]
  | a :: rest =>
    let r := splitAll c rest
    if a = c then [] :: r
    else
      match r with
      | [] => [[a]]
      | h :: t => (a :: h) :: t

/-- `BufRead::lines` strips one trailing carriage return from each line. -/
def stripCR (l : List Char) : List Char :=
  if l.getLast? = some '\x0d' then l.dropLast else l

/-- `BufRead::lines`: split the file on `'\n'`, drop a final empty segment
(no line after a terminating newline), strip trailing `'\r'` per line. -/
def rustLines (content : List Char) : List (List Char) :=
  (if (splitAll '\x0a' content).getLast? = some [] then (splitAll '\x0a' content).dropLast
   else splitAll '\x0a' content).map stripCR

/-- `tags_created.flatten(",")`. -/
def serTags : List String → List Char
  | [] => []
  | [t] => t.data
  | t :: t' :: rest => t.data ++ ',' :: serTags (t' :: rest)

/-- One line of the state file: `"{} {} {}"` with the three fields. -/
def serLine (s : MergeStep) : List Char :=
  s.target_branch.data ++ ' ' :: s.original_sha.data ++ ' ' :: serTags s.tags_created

/-- `glisse3.rs::save_state`: the full file content written for a history.
`File::create` truncates, so the result is a function of the history alone —
prior file contents never survive. -/
def save_state (hist : List MergeStep) : List Char :=
  (hist.map (fun s => serLine s ++ ['\x0a'])).flatten

/-- The body of the `glisse3.rs::load_state` loop for one line:
`splitn(3, ' ')`, `unwrap()` on the first two parts (`none` models the panic
when a line has no space), `unwrap_or("")` then `split(',')` with empty
segments filtered for the tag list. -/
def parseLine (l : List Char) : Option MergeStep :=
  match splitFirst ' ' l with
  | none => none
  | some (tb, rest) =>
    let p :=
      match splitFirst ' ' rest with
      | none => (rest, ([] : List Char))
      | some (sh, tp) => (sh, tp)
    some ⟨String.mk tb, String.mk p.1,
      ((splitAll ',' p.2).filter (fun seg => seg ≠ [])).map String.mk⟩

/-- The `glisse3.rs::load_state` loop: parse each line in order, pushing the
steps; a malformed line panics (`none`). -/
def parseLines : List (List Char) → Option (List MergeStep)
  | [] => some []
  | l :: rest =>
    match parseLine l with
    | none => none
    | some s => (parseLines rest).map (s :: ·)

/-- `glisse3.rs::load_state`: an absent file yields the empty history;
otherwise every line is parsed (`none` models a panic on a malformed line). -/
def load_state (file : Option (List Char)) : Option (List MergeStep) :=
  match file with
  | none => some []
  | some content => parseLines (rustLines content)

/-- A branch name or SHA free of the characters that break the line format:
the field separator `' '` and the line separators `'\n'`, `'\r'`. -/
def goodField (s : String) : Prop :=
  ∀ c ∈ s.data, c ≠ ' ' ∧ c ≠ '\x0a' ∧ c ≠ '\x0d'

/-- A tag name that is non-empty and free of the characters that break the
tag-list encoding: the tag separator `','` and the line separators. -/
def goodTag (t : String) : Prop :=
  t.data ≠ [] ∧ ∀ c ∈ t.data, c ≠ ',' ∧ c ≠ '\x0a' ∧ c ≠ '\x0d'

/-- A `MergeStep` whose fields round-trip through the line format. -/
def goodStep (s : MergeStep) : Prop :=
  goodField s.target_branch ∧ goodField s.original_sha ∧ ∀ t ∈ s.tags_created, goodTag t

instance (s : String) : Decidable (goodField s) := by
  unfold goodField; infer_instance

instance (t : String) : Decidable (goodTag t) := by
  unfold goodTag; infer_instance

instance (s : MergeStep) : Decidable (goodStep s) := by
  unfold goodStep; infer_instance

/-! ### Projections of traces and auxiliary views -/

/-- The name of a chain's first node. -/
def BranchG.name : BranchG → String
  | .node n _ _ => n

/-- The hooks of a chain's first node. -/
def BranchG.hooks : BranchG → List Nat
  | .node _ h _ => h

/-- Collapse `inl`/`inr` of a transition result to the underlying state. -/
def sumSt : ExecSt ⊕ ExecSt → ExecSt
  | .inl s => s
  | .inr s => s

/-- The branches checked out along a trace, in order. -/
def checkoutsOf (es : List Event) : List String :=
  es.filterMap (fun e => match e with | Event.checkout b _ => some b | _ => none)

/-- The merge sources along a trace, in order. -/
def mergesOf (es : List Event) : List String :=
  es.filterMap (fun e => match e with | Event.merge b _ => some b | _ => none)

/-- The histories persisted along a trace, in order. -/
def savesOf (es : List Event) : List (List MergeStep) :=
  es.filterMap (fun e => match e with | Event.save h => some h | _ => none)

/-- Erase the success flag of the best-effort operations, keeping which
operation was attempted on which arguments. -/
def eventOp : Event → Event
  | Event.deleteTag t _ => Event.deleteTag t true
  | Event.checkout b _ => Event.checkout b true
  | Event.resetHard b sh _ => Event.resetHard b sh true
  | e => e

/-- The finalized record a fully successful transition leaves for `tgt`. -/
def finalStep (o : TransOracle) (tgt : Stage) : MergeStep :=
  ⟨tgt.name, get_sha o, tags_diff o.postTags o.preTags⟩

/-- The events of one fully successful transition, starting from in-memory
history `hist`. -/
def transEvents (o : TransOracle) (src tgt : Stage) (hist : List MergeStep) : List Event :=
  [Event.getTags o.preTags, Event.getSha tgt.name (get_sha o),
   Event.save (hist ++ [⟨tgt.name, get_sha o, []⟩]),
   Event.checkout tgt.name true, Event.merge src.name true,
   Event.getTags o.postTags, Event.save (hist ++ [finalStep o tgt])]
  ++ tgt.hooks.map (fun k => Event.hookRun k (finalStep o tgt) src.name)

/-- The trace of a fully successful run over the given transitions, transition
blocks concatenated in order. -/
def okTrace (o : Nat → TransOracle) : Nat → List (Stage × Stage) → List MergeStep → List Event
  | _, [], _ => []
  | i, (src, tgt) :: rest, hist =>
    transEvents (o i) src tgt hist ++ okTrace o (i + 1) rest (hist ++ [finalStep (o i) tgt])

/-- The history accumulated by a fully successful run over the given
transitions. -/
def okHist (o : Nat → TransOracle) : Nat → List (Stage × Stage) → List MergeStep → List MergeStep
  | _, [], hist => hist
  | i, (_, tgt) :: rest, hist => okHist o (i + 1) rest (hist ++ [finalStep (o i) tgt])

/-! ### Concrete inputs used by the witnesses -/

/-- A two-stage owned chain `dev → staging`, one hook on `staging`. -/
def wChainG : BranchG :=
  .node "dev" [] (some (.node "staging" [7] none))

/-- The same chain laid out as `Rc` cells: node 0 = `dev`, node 1 = `staging`. -/
def wHeap : Heap :=
  ⟨[⟨"dev", [], some 1⟩, ⟨"staging", [7], none⟩]⟩

/-- A three-stage owned chain `dev → staging → main` as in both `main`
functions (one hook each on `staging` and `main`). -/
def wChain3 : BranchG :=
  .node "dev" [] (some (.node "staging" [1] (some (.node "main" [2] none))))

/-- An oracle on which every git call succeeds and the merge into `staging`
creates the tag `v2`. -/
def wOracleOk : Nat → TransOracle := fun i =>
  if i = 0 then ⟨["v1"], true, "s1\x0a", true, true, ["v1", "v2"]⟩
  else ⟨["v1", "v2"], true, "m1\x0a", true, true, ["v1", "v2"]⟩

/-- An oracle whose SHA resolution fails for the first transition: `rev-parse`
exits non-zero and echoes the unresolvable name `staging` on stdout. -/
def wOracleBadSha : Nat → TransOracle := fun _ =>
  ⟨[], false, "staging\x0a", true, true, []⟩

/-- An undo oracle on which every best-effort call fails. -/
def wUndoFail : UndoOracle :=
  ⟨fun _ => false, fun _ => false, fun _ _ => false⟩

/-- An undo oracle on which every best-effort call succeeds. -/
def wUndoOk : UndoOracle :=
  ⟨fun _ => true, fun _ => true, fun _ _ => true⟩

/-- A two-step history as in the spec's scenario. -/
def wHist : List MergeStep :=
  [⟨"staging", "s1", ["v2"]⟩, ⟨"main", "m1", []⟩]

/-- A history exercising the empty and the multi-tag cases of the log format. -/
def wHistTags : List MergeStep :=
  [⟨"staging", "s1", []⟩, ⟨"main", "m1", ["v2", "v3"]⟩]

/-- The finalized record of the first `wOracleOk` transition. -/
def wStep1 : MergeStep := ⟨"staging", "s1", ["v2"]⟩

/-- The state after one fully successful transition of `wChainG` under
`wOracleOk`, starting from the empty state. -/
def wState1 : ExecSt :=
  ⟨[wStep1], some [wStep1],
   [Event.getTags ["v1"], Event.getSha "staging" "s1",
    Event.save [⟨"staging", "s1", []⟩],
    Event.checkout "staging" true, Event.merge "dev" true,
    Event.getTags ["v1", "v2"], Event.save [wStep1],
    Event.hookRun 7 wStep1 "dev"]⟩

/-! ## Theorems -/

/-- C8: invoking undo with no durable log present performs no operation at all
(empty trace), leaves the durable state untouched, and does not error, in both
variants; and running undo twice in a row from any durable state behaves like
running it once: the second invocation produces no events and leaves the
durable state exactly where the first left it. -/
theorem c8_undo_noop_and_idempotent (u : UndoOracle) :
    unwindG none u = ([], none) ∧ unwind3 none u = ([], none) ∧
    ∀ d : Option (List MergeStep),
      unwindG (unwindG d u).2 u = ([], (unwindG d u).2) ∧
      unwind3 (unwind3 d u).2 u = ([], (unwind3 d u).2) := by
  refine ⟨rfl, rfl, ?_⟩
  intro d
  cases d with
  | none => exact ⟨rfl, rfl⟩
  | some steps =>
    cases steps with
    | nil => exact ⟨rfl, rfl⟩
    | cons a l => exact ⟨rfl, rfl⟩

/-- C2 (code-bug exhibit): on a run whose `rev-parse` fails for the target
branch (`shaExit = false`, stdout echoing the unresolvable name), the engine
does not abort: it records the trimmed garbage stdout `"staging"` as
`original_sha`, proceeds to the mutating `checkout` and `merge`, and completes
the pipeline normally. -/
theorem c2_resolution_failure_ignored :
    (wOracleBadSha 0).shaExit = false ∧
    executeG wChainG wOracleBadSha none =
      ExecOut.completed
        ⟨[⟨"staging", "staging", []⟩], some [⟨"staging", "staging", []⟩],
         [Event.getTags [], Event.getSha "staging" "staging",
          Event.save [⟨"staging", "staging", []⟩],
          Event.checkout "staging" true, Event.merge "dev" true,
          Event.getTags [], Event.save [⟨"staging", "staging", []⟩],
          Event.hookRun 7 ⟨"staging", "staging", []⟩ "dev"]⟩ := by
  exact ⟨rfl, by decide⟩

/-- C3: for a transition that completes its merge, the recorded step's
`tags_created` is the computed difference of the post- and pre-merge tag
listings: it holds exactly the tags present after but not before, and it
contains no duplicates. -/
theorem c3_tags_created_set_diff (o : TransOracle) (src tgt : Stage) (s s' : ExecSt)
    (hco : o.checkoutOk = true) (hmo : o.mergeOk = true)
    (hrun : runTransitionG o src tgt s = Sum.inl s') :
    s'.history.getLast? = some ⟨tgt.name, get_sha o, tags_diff o.postTags o.preTags⟩ ∧
    (tags_diff o.postTags o.preTags).Nodup ∧
    ∀ t : String, t ∈ tags_diff o.postTags o.preTags ↔ (t ∈ o.postTags ∧ t ∉ o.preTags) := by
  refine ⟨?_, List.nodup_dedup _, ?_⟩
  · simp only [runTransitionG, hco, hmo, if_true] at hrun
    simp only [Sum.inl.injEq] at hrun
    rw [← hrun]
    simp [List.getLast?_concat]
  · intro t
    simp [tags_diff, List.mem_dedup, List.mem_filter]

/-- Witness for C3 at a concrete transition. -/
theorem c3_witness :
    runTransitionG (wOracleOk 0) ⟨"dev", []⟩ ⟨"staging", [7]⟩ ⟨[], none, []⟩ = Sum.inl wState1 ∧
    (wState1.history.getLast? =
        some ⟨"staging", get_sha (wOracleOk 0), tags_diff (wOracleOk 0).postTags (wOracleOk 0).preTags⟩ ∧
      (tags_diff (wOracleOk 0).postTags (wOracleOk 0).preTags).Nodup ∧
      ∀ t : String, t ∈ tags_diff (wOracleOk 0).postTags (wOracleOk 0).preTags ↔
        (t ∈ (wOracleOk 0).postTags ∧ t ∉ (wOracleOk 0).preTags)) := by
  refine ⟨by decide, ?_⟩
  exact c3_tags_created_set_diff (wOracleOk 0) ⟨"dev", []⟩ ⟨"staging", [7]⟩ ⟨[], none, []⟩
    wState1 (by decide) (by decide) (by decide)

/-- C10: materializing the pipeline always yields the start stage first and a
length of at least 1 (so `pipeline.len() - 1` never underflows), in both
variants; and a forward run over a single-stage chain performs no VCS
operation, writes no log, and completes normally. -/
theorem c10_pipeline_nonempty_single_stage_noop :
    (∀ chain : BranchG, 1 ≤ (get_pipelineG chain).length ∧
      (get_pipelineG chain).head? = some ⟨chain.name, chain.hooks⟩) ∧
    (∀ (h : Heap) (fuel i : Nat) (l : List Stage), get_pipeline3 h fuel i = some l →
      1 ≤ l.length ∧ ∃ b : BranchR, h.nodes[i]? = some b ∧ l.head? = some ⟨b.name, b.hooks⟩) ∧
    (∀ (n : String) (hk : List Nat) (o : Nat → TransOracle) (d : Option (List MergeStep)),
      executeG (.node n hk none) o d = ExecOut.completed ⟨[], d, []⟩) := by
  refine ⟨?_, ?_, ?_⟩
  · intro chain
    cases chain with
    | node n h nxt => cases nxt <;> simp [get_pipelineG, BranchG.name, BranchG.hooks]
  · intro h fuel i l hl
    cases fuel with
    | zero => simp [get_pipeline3] at hl
    | succ f =>
      cases hg : h.nodes[i]? with
      | none => simp [get_pipeline3, hg] at hl
      | some b =>
        cases hnx : b.next with
        | none =>
          simp [get_pipeline3, hg, hnx] at hl
          refine ⟨?_, b, rfl, ?_⟩ <;> simp [← hl]
        | some j =>
          simp [get_pipeline3, hg, hnx] at hl
          obtain ⟨l', _, hl'⟩ := hl
          refine ⟨?_, b, rfl, ?_⟩ <;> simp [← hl']
  · intro n hk o d
    rfl

/-- Witness for C10's heap-pipeline component at a concrete heap. -/
theorem c10_witness :
    get_pipeline3 wHeap 2 0 = some [⟨"dev", []⟩, ⟨"staging", [7]⟩] ∧
    (1 ≤ ([⟨"dev", []⟩, ⟨"staging", [7]⟩] : List Stage).length ∧
      ∃ b : BranchR, wHeap.nodes[0]? = some b ∧
        ([⟨"dev", []⟩, ⟨"staging", [7]⟩] : List Stage).head? = some ⟨b.name, b.hooks⟩) := by
  refine ⟨by decide, ?_⟩
  exact c10_pipeline_nonempty_single_stage_noop.2.1 wHeap 2 0
    [⟨"dev", []⟩, ⟨"staging", [7]⟩] (by decide)

/-- Erasing the success flags of a step's undo operations leaves the operation
sequence, which does not depend on the oracle. -/
theorem eventOp_undoStepEvents (u : UndoOracle) (st : MergeStep) :
    (undoStepEvents u st).map eventOp =
      st.tags_created.map (fun t => Event.deleteTag t true)
        ++ [Event.checkout st.target_branch true,
            Event.resetHard st.target_branch st.original_sha true] := by
  simp [undoStepEvents, eventOp, List.map_map, Function.comp]

/-- C5: undo over a logged history processes the steps newest-first: the trace
is the concatenation, over the reversed history, of each step's tag deletions
(in order) followed by its checkout and hard reset, with the log removed only
after the last step; afterwards no durable log remains.  The operation
sequence is the same whatever the outcomes of the individual best-effort git
calls, so no failure prevents the remaining steps.  Both variants agree. -/
theorem c5_unwind_reverse_order (steps : List MergeStep) (u : UndoOracle) (hne : steps ≠ []) :
    (unwindG (some steps) u).1 =
      (steps.reverse.map (undoStepEvents u)).flatten ++ [Event.removeLog] ∧
    (unwind3 (some steps) u).1 =
      (steps.reverse.map (undoStepEvents u)).flatten ++ [Event.removeLog] ∧
    (unwindG (some steps) u).2 = none ∧
    (unwind3 (some steps) u).2 = none ∧
    ∀ u' : UndoOracle,
      ((unwind3 (some steps) u).1).map eventOp = ((unwind3 (some steps) u').1).map eventOp := by
  cases steps with
  | nil => exact absurd rfl hne
  | cons a l =>
    refine ⟨rfl, rfl, rfl, rfl, ?_⟩
    intro u'
    show ((((a :: l).reverse.map (undoStepEvents u)).flatten ++ [Event.removeLog]).map eventOp)
        = ((((a :: l).reverse.map (undoStepEvents u')).flatten ++ [Event.removeLog]).map eventOp)
    simp [List.map_append, List.map_flatten, List.map_map, Function.comp_def,
      eventOp_undoStepEvents, eventOp]

/-- Witness for C5 on the spec's two-step scenario history, with every
best-effort call failing. -/
theorem c5_witness :
    wHist ≠ [] ∧
    (unwindG (some wHist) wUndoFail).1 =
      (wHist.reverse.map (undoStepEvents wUndoFail)).flatten ++ [Event.removeLog] := by
  refine ⟨by decide, ?_⟩
  exact (c5_unwind_reverse_order wHist wUndoFail (by decide)).1

/-- After any transition the durable log holds exactly the full in-memory
history of that moment, whatever it held before. -/
theorem runTransitionG_durable_eq_history (o : TransOracle) (src tgt : Stage) (s : ExecSt) :
    (sumSt (runTransitionG o src tgt s)).durable
      = some (sumSt (runTransitionG o src tgt s)).history := by
  cases hc : o.checkoutOk <;> cases hm : o.mergeOk <;>
    simp [runTransitionG, sumSt, hc, hm]

/-- A transition never reads the incoming durable content. -/
theorem runTransitionG_durable_independent (o : TransOracle) (src tgt : Stage)
    (h : List MergeStep) (e : List Event) (d₁ d₂ : Option (List MergeStep)) :
    runTransitionG o src tgt ⟨h, d₁, e⟩ = runTransitionG o src tgt ⟨h, d₂, e⟩ := rfl

/-- The loop never reads the initial durable content: histories and traces
agree for any two initial file states. -/
theorem execLoopG_ignores_initial_durable (o : Nat → TransOracle) :
    ∀ (rest : List (Stage × Stage)) (i : Nat) (h : List MergeStep) (e : List Event)
      (d₁ d₂ : Option (List MergeStep)),
      (execLoopG o i rest ⟨h, d₁, e⟩).st.history = (execLoopG o i rest ⟨h, d₂, e⟩).st.history ∧
      (execLoopG o i rest ⟨h, d₁, e⟩).st.events = (execLoopG o i rest ⟨h, d₂, e⟩).st.events
  | [], _, _, _, _, _ => ⟨rfl, rfl⟩
  | (src, tgt) :: rest, i, h, e, d₁, d₂ => by
    have heq : execLoopG o i ((src, tgt) :: rest) ⟨h, d₁, e⟩
        = execLoopG o i ((src, tgt) :: rest) ⟨h, d₂, e⟩ := by
      simp only [execLoopG]
      rw [runTransitionG_durable_independent (o i) src tgt h e d₁ d₂]
    rw [heq]
    exact ⟨rfl, rfl⟩

/-- Invariant of the loop: once the history is non-empty, the durable log is
exactly the serialized current history. -/
theorem execLoopG_durable_inv (o : Nat → TransOracle) :
    ∀ (rest : List (Stage × Stage)) (i : Nat) (s : ExecSt),
      (s.history ≠ [] → s.durable = some s.history) →
      ((execLoopG o i rest s).st.history ≠ [] →
        (execLoopG o i rest s).st.durable = some (execLoopG o i rest s).st.history)
  | [], _, _, hs => hs
  | (src, tgt) :: rest, i, s, hs => by
    cases hres : runTransitionG (o i) src tgt s with
    | inl s' =>
      have h1 := runTransitionG_durable_eq_history (o i) src tgt s
      rw [hres] at h1
      have hstep : execLoopG o i ((src, tgt) :: rest) s = execLoopG o (i + 1) rest s' := by
        simp [execLoopG, hres]
      rw [hstep]
      exact execLoopG_durable_inv o rest (i + 1) s' (fun _ => h1)
    | inr s' =>
      have h1 := runTransitionG_durable_eq_history (o i) src tgt s
      rw [hres] at h1
      have hstep : execLoopG o i ((src, tgt) :: rest) s = ExecOut.fatal s' := by
        simp [execLoopG, hres]
      rw [hstep]
      exact fun _ => h1

/-- C9: every persist writes the entire current history, replacing prior
contents: right after any transition the durable log equals the full in-memory
history regardless of what it held before; a run's history and trace are
independent of the initial durable content (no leftover records are ever
read or kept); and at the end of any run with at least one step recorded the
durable log is exactly the in-memory history. -/
theorem c9_persist_overwrites_wholesale :
    (∀ (o : TransOracle) (src tgt : Stage) (s : ExecSt),
      (sumSt (runTransitionG o src tgt s)).durable
        = some (sumSt (runTransitionG o src tgt s)).history) ∧
    (∀ (chain : BranchG) (o : Nat → TransOracle) (d₁ d₂ : Option (List MergeStep)),
      (executeG chain o d₁).st.history = (executeG chain o d₂).st.history ∧
      (executeG chain o d₁).st.events = (executeG chain o d₂).st.events) ∧
    (∀ (chain : BranchG) (o : Nat → TransOracle) (d : Option (List MergeStep)),
      (executeG chain o d).st.history ≠ [] →
      (executeG chain o d).st.durable = some (executeG chain o d).st.history) := by
  refine ⟨runTransitionG_durable_eq_history, ?_, ?_⟩
  · intro chain o d₁ d₂
    exact execLoopG_ignores_initial_durable o _ 0 [] [] d₁ d₂
  · intro chain o d
    exact execLoopG_durable_inv o _ 0 ⟨[], d, []⟩ (fun hne => absurd rfl hne)

/-- Witness for C9 on a concrete completed run. -/
theorem c9_witness :
    (executeG wChainG wOracleOk none).st.history ≠ [] ∧
    (executeG wChainG wOracleOk none).st.durable
      = some (executeG wChainG wOracleOk none).st.history := by
  refine ⟨by decide, ?_⟩
  exact c9_persist_overwrites_wholesale.2.2 wChainG wOracleOk none (by decide)

/-- The two loop bodies are the same procedure. -/
theorem runTransition3_eq_runTransitionG : runTransition3 = runTransitionG := rfl

/-- The two execute loops agree on every pipeline, state and oracle. -/
theorem execLoop3_eq_execLoopG (o : Nat → TransOracle) :
    ∀ (rest : List (Stage × Stage)) (i : Nat) (s : ExecSt),
      execLoop3 o i rest s = execLoopG o i rest s
  | [], _, _ => rfl
  | (src, tgt) :: rest, i, s => by
    simp only [execLoop3, execLoopG, runTransition3_eq_runTransitionG]
    cases hres : runTransitionG (o i) src tgt s with
    | inl s' => exact execLoop3_eq_execLoopG o rest (i + 1) s'
    | inr s' => rfl

/-- A represented chain materializes to the same pipeline, given enough fuel. -/
theorem chainRepr_pipeline {h : Heap} {b : BranchG} {i : Nat} (hrep : ChainRepr h b i) :
    ∀ fuel : Nat, b.len ≤ fuel → get_pipeline3 h fuel i = some (get_pipelineG b) := by
  induction hrep with
  | last i n hk hget =>
    intro fuel hf
    cases fuel with
    | zero => simp [BranchG.len] at hf
    | succ f => simp [get_pipeline3, hget, get_pipelineG]
  | cons i j n hk b hget hrep ih =>
    intro fuel hf
    cases fuel with
    | zero => simp [BranchG.len] at hf
    | succ f =>
      have hb : b.len ≤ f := by
        simp [BranchG.len] at hf
        omega
      simp [get_pipeline3, hget, get_pipelineG, ih f hb]

/-- C1: the two variants are behaviorally equivalent.  For a heap chain that
represents the same stage configuration (same names, same hooks, same links)
as an owned chain, and the same sequence of VCS responses, the forward runs
coincide: same transitions, same persisted histories, same hook invocations,
in the same order (the whole final state, trace included, is equal). -/
theorem c1_variants_equivalent (h : Heap) (b : BranchG) (i fuel : Nat)
    (o : Nat → TransOracle) (d : Option (List MergeStep))
    (hrep : ChainRepr h b i) (hf : b.len ≤ fuel) :
    execute3 h i fuel o d = some (executeG b o d) := by
  unfold execute3 executeG
  rw [chainRepr_pipeline hrep fuel hf]
  simp [execLoop3_eq_execLoopG]

/-- Witness for C1: the `dev → staging` chain laid out both ways. -/
theorem c1_witness :
    ChainRepr wHeap wChainG 0 ∧ BranchG.len wChainG ≤ 2 ∧
    execute3 wHeap 0 2 wOracleOk none = some (executeG wChainG wOracleOk none) := by
  have hrep : ChainRepr wHeap wChainG 0 :=
    ChainRepr.cons 0 1 "dev" [] (BranchG.node "staging" [7] none) rfl
      (ChainRepr.last 1 "staging" [7] rfl)
  exact ⟨hrep, by decide,
    c1_variants_equivalent wHeap wChainG 0 2 wOracleOk none hrep (by decide)⟩

/-- A transition whose checkout and merge both succeed reaches exactly the
expected state: the finalized step appended to the history, persisted, with
the transition's event block appended to the trace. -/
theorem runTransitionG_ok (o : TransOracle) (src tgt : Stage) (s : ExecSt)
    (hco : o.checkoutOk = true) (hmo : o.mergeOk = true) :
    runTransitionG o src tgt s =
      Sum.inl ⟨s.history ++ [finalStep o tgt], some (s.history ++ [finalStep o tgt]),
        s.events ++ transEvents o src tgt s.history⟩ := by
  simp [runTransitionG, hco, hmo, transEvents, finalStep]

/-- A run in which every checkout and merge succeeds completes, accumulating
exactly the per-transition event blocks in pipeline order. -/
theorem execLoopG_all_ok (o : Nat → TransOracle)
    (hok : ∀ j, (o j).checkoutOk = true ∧ (o j).mergeOk = true) :
    ∀ (rest : List (Stage × Stage)) (i : Nat) (s : ExecSt),
      ∃ s', execLoopG o i rest s = ExecOut.completed s' ∧
        s'.history = okHist o i rest s.history ∧
        s'.events = s.events ++ okTrace o i rest s.history
  | [], i, s => ⟨s, rfl, rfl, by simp [okTrace]⟩
  | (src, tgt) :: rest, i, s => by
    have hrun := runTransitionG_ok (o i) src tgt s (hok i).1 (hok i).2
    obtain ⟨s', hs', hh, he⟩ := execLoopG_all_ok o hok rest (i + 1)
      ⟨s.history ++ [finalStep (o i) tgt], some (s.history ++ [finalStep (o i) tgt]),
       s.events ++ transEvents (o i) src tgt s.history⟩
    refine ⟨s', ?_, ?_, ?_⟩
    · simp only [execLoopG, hrun]
      exact hs'
    · rw [hh]
      simp [okHist]
    · rw [he]
      simp [okTrace, List.append_assoc]

/-- Hook invocations check out nothing. -/
theorem checkoutsOf_hookRuns (hl : List Nat) (st : MergeStep) (sn : String) :
    checkoutsOf (hl.map fun k => Event.hookRun k st sn) = [] := by
  induction hl with
  | nil => rfl
  | cons a l ih => simp [checkoutsOf]

/-- Hook invocations merge nothing. -/
theorem mergesOf_hookRuns (hl : List Nat) (st : MergeStep) (sn : String) :
    mergesOf (hl.map fun k => Event.hookRun k st sn) = [] := by
  induction hl with
  | nil => rfl
  | cons a l ih => simp [mergesOf]

/-- Hook invocations persist nothing. -/
theorem savesOf_hookRuns (hl : List Nat) (st : MergeStep) (sn : String) :
    savesOf (hl.map fun k => Event.hookRun k st sn) = [] := by
  induction hl with
  | nil => rfl
  | cons a l ih => simp [savesOf]

/-- `checkoutsOf` distributes over trace concatenation. -/
theorem checkoutsOf_append (es fs : List Event) :
    checkoutsOf (es ++ fs) = checkoutsOf es ++ checkoutsOf fs := by
  simp [checkoutsOf]

/-- `mergesOf` distributes over trace concatenation. -/
theorem mergesOf_append (es fs : List Event) :
    mergesOf (es ++ fs) = mergesOf es ++ mergesOf fs := by
  simp [mergesOf]

/-- One successful transition block checks out exactly its target. -/
theorem checkoutsOf_transEvents (o : TransOracle) (src tgt : Stage) (hist : List MergeStep) :
    checkoutsOf (transEvents o src tgt hist) = [tgt.name] := by
  show checkoutsOf (_ ++ tgt.hooks.map fun k => Event.hookRun k (finalStep o tgt) src.name)
      = [tgt.name]
  rw [checkoutsOf_append, checkoutsOf_hookRuns]
  simp [checkoutsOf]

/-- One successful transition block merges exactly its source. -/
theorem mergesOf_transEvents (o : TransOracle) (src tgt : Stage) (hist : List MergeStep) :
    mergesOf (transEvents o src tgt hist) = [src.name] := by
  show mergesOf (_ ++ tgt.hooks.map fun k => Event.hookRun k (finalStep o tgt) src.name)
      = [src.name]
  rw [mergesOf_append, mergesOf_hookRuns]
  simp [mergesOf]

/-- Along a fully successful trace, the checked-out branches are exactly the
transition targets in order. -/
theorem checkoutsOf_okTrace (o : Nat → TransOracle) :
    ∀ (ts : List (Stage × Stage)) (i : Nat) (hist : List MergeStep),
      checkoutsOf (okTrace o i ts hist) = ts.map (fun pr => pr.2.name)
  | [], _, _ => rfl
  | (src, tgt) :: ts, i, hist => by
    simp only [okTrace, checkoutsOf_append, checkoutsOf_transEvents,
      checkoutsOf_okTrace o ts (i + 1), List.map]
    rfl

/-- Along a fully successful trace, the merge sources are exactly the
transition sources in order. -/
theorem mergesOf_okTrace (o : Nat → TransOracle) :
    ∀ (ts : List (Stage × Stage)) (i : Nat) (hist : List MergeStep),
      mergesOf (okTrace o i ts hist) = ts.map (fun pr => pr.1.name)
  | [], _, _ => rfl
  | (src, tgt) :: ts, i, hist => by
    simp only [okTrace, mergesOf_append, mergesOf_transEvents,
      mergesOf_okTrace o ts (i + 1), List.map]
    rfl

/-- C6: on a forward run in which every checkout and merge succeeds, the
engine completes and its trace is exactly the concatenation, in order, of the
per-transition blocks for the adjacent pairs `(p[i], p[i+1])` of the pipeline
— each block runs its hooks before the next transition begins — and the
checkout/merge projections of the trace list exactly the targets and sources
in pipeline order: nothing skipped, repeated or reordered. -/
theorem c6_transitions_in_order (chain : BranchG) (o : Nat → TransOracle)
    (d : Option (List MergeStep))
    (hok : ∀ j, (o j).checkoutOk = true ∧ (o j).mergeOk = true) :
    ∃ s', executeG chain o d = ExecOut.completed s' ∧
      s'.events = okTrace o 0 (transitions (get_pipelineG chain)) [] ∧
      checkoutsOf s'.events = (transitions (get_pipelineG chain)).map (fun pr => pr.2.name) ∧
      mergesOf s'.events = (transitions (get_pipelineG chain)).map (fun pr => pr.1.name) := by
  obtain ⟨s', hs', hh, he⟩ :=
    execLoopG_all_ok o hok (transitions (get_pipelineG chain)) 0 ⟨[], d, []⟩
  have he' : s'.events = okTrace o 0 (transitions (get_pipelineG chain)) [] := by
    simpa using he
  exact ⟨s', hs', he', by rw [he', checkoutsOf_okTrace], by rw [he', mergesOf_okTrace]⟩

/-- Witness for C6: the three-stage `dev → staging → main` chain under the
all-success oracle. -/
theorem c6_witness :
    (∀ j, (wOracleOk j).checkoutOk = true ∧ (wOracleOk j).mergeOk = true) ∧
    ∃ s', executeG wChain3 wOracleOk none = ExecOut.completed s' ∧
      s'.events = okTrace wOracleOk 0 (transitions (get_pipelineG wChain3)) [] ∧
      checkoutsOf s'.events = (transitions (get_pipelineG wChain3)).map (fun pr => pr.2.name) ∧
      mergesOf s'.events = (transitions (get_pipelineG wChain3)).map (fun pr => pr.1.name) := by
  have hok : ∀ j, (wOracleOk j).checkoutOk = true ∧ (wOracleOk j).mergeOk = true := by
    intro j
    by_cases hj : j = 0 <;> simp [wOracleOk, hj]
  exact ⟨hok, c6_transitions_in_order wChain3 wOracleOk none hok⟩

/-- C7: for every transition, the provisional persist writes the incoming
history plus a record carrying the target's name, the pre-mutation SHA and an
empty tag set — and that is all that remains durable if the checkout or merge
then fails fatally; on success, the post-merge persist re-writes the same
record with `tags_created` set to the post-minus-pre tag difference, target
and SHA unchanged, and those are the only two persists of the transition. -/
theorem c7_provisional_then_final (o : TransOracle) (src tgt : Stage) (s : ExecSt) :
    (∀ s', runTransitionG o src tgt s = Sum.inr s' →
      savesOf (s'.events.drop s.events.length)
          = [s.history ++ [⟨tgt.name, get_sha o, []⟩]] ∧
      s'.durable = some (s.history ++ [⟨tgt.name, get_sha o, []⟩])) ∧
    (∀ s', runTransitionG o src tgt s = Sum.inl s' →
      savesOf (s'.events.drop s.events.length)
          = [s.history ++ [⟨tgt.name, get_sha o, []⟩],
             s.history ++ [⟨tgt.name, get_sha o, tags_diff o.postTags o.preTags⟩]] ∧
      s'.durable = some (s.history ++ [⟨tgt.name, get_sha o, tags_diff o.postTags o.preTags⟩])) := by
  constructor
  · intro s' hrun
    cases hc : o.checkoutOk with
    | false =>
      simp only [runTransitionG, hc, Bool.false_eq_true, if_false, Sum.inr.injEq] at hrun
      rw [← hrun]
      constructor
      · simp only [List.append_assoc, List.drop_left]
        simp [savesOf]
      · rfl
    | true =>
      cases hm : o.mergeOk with
      | false =>
        simp only [runTransitionG, hc, hm, Bool.false_eq_true, if_true, if_false,
          Sum.inr.injEq] at hrun
        rw [← hrun]
        constructor
        · simp only [List.append_assoc, List.drop_left]
          simp [savesOf]
        · rfl
      | true =>
        simp [runTransitionG, hc, hm] at hrun
  · intro s' hrun
    cases hc : o.checkoutOk with
    | false => simp [runTransitionG, hc] at hrun
    | true =>
      cases hm : o.mergeOk with
      | false => simp [runTransitionG, hc, hm] at hrun
      | true =>
        rw [runTransitionG_ok o src tgt s hc hm] at hrun
        simp only [Sum.inl.injEq] at hrun
        rw [← hrun]
        constructor
        · show savesOf ((s.events ++ transEvents o src tgt s.history).drop s.events.length) = _
          rw [List.drop_left]
          show savesOf (_ ++ tgt.hooks.map fun k => Event.hookRun k (finalStep o tgt) src.name)
              = _
          simp [savesOf, List.filterMap_append, savesOf_hookRuns, finalStep]
        · simp [finalStep]

/-- Witness for C7 at a concrete successful transition. -/
theorem c7_witness :
    runTransitionG (wOracleOk 0) ⟨"dev", []⟩ ⟨"staging", [7]⟩ ⟨[], none, []⟩ = Sum.inl wState1 ∧
    (savesOf (wState1.events.drop ([] : List Event).length)
        = [[⟨"staging", get_sha (wOracleOk 0), []⟩],
           [⟨"staging", get_sha (wOracleOk 0), tags_diff (wOracleOk 0).postTags (wOracleOk 0).preTags⟩]] ∧
      wState1.durable
        = some [⟨"staging", get_sha (wOracleOk 0),
                 tags_diff (wOracleOk 0).postTags (wOracleOk 0).preTags⟩]) := by
  refine ⟨by decide, ?_⟩
  have h := (c7_provisional_then_final (wOracleOk 0) ⟨"dev", []⟩ ⟨"staging", [7]⟩
    ⟨[], none, []⟩).2 wState1 (by decide)
  simpa using h

/-- `splitn` yields the prefix before the first separator and the rest. -/
theorem splitFirst_append (c : Char) :
    ∀ (a r : List Char), c ∉ a → splitFirst c (a ++ c :: r) = some (a, r)
  | [], r, _ => by simp [splitFirst]
  | x :: a, r, h => by
    have hx : ¬ x = c := fun hxc => h (hxc ▸ List.mem_cons_self x a)
    have ih := splitFirst_append c a r (fun hm => h (List.mem_cons_of_mem x hm))
    simp only [List.cons_append, splitFirst, List.append_eq, if_neg hx, ih]

/-- `split` on a separator-free string yields that single segment. -/
theorem splitAll_single (c : Char) :
    ∀ (l : List Char), c ∉ l → splitAll c l = [l]
  | [], _ => rfl
  | x :: l, h => by
    have hx : ¬ x = c := fun hxc => h (hxc ▸ List.mem_cons_self x l)
    have ih := splitAll_single c l (fun hm => h (List.mem_cons_of_mem x hm))
    simp only [splitAll, List.append_eq, if_neg hx, ih]

/-- `split` peels one separator-free segment off the front. -/
theorem splitAll_append (c : Char) :
    ∀ (a r : List Char), c ∉ a → splitAll c (a ++ c :: r) = a :: splitAll c r
  | [], r, _ => by simp [splitAll]
  | x :: a, r, h => by
    have hx : ¬ x = c := fun hxc => h (hxc ▸ List.mem_cons_self x a)
    have ih := splitAll_append c a r (fun hm => h (List.mem_cons_of_mem x hm))
    simp only [List.cons_append, splitAll, List.append_eq, if_neg hx, ih]

/-- `split` never yields an empty segment list. -/
theorem splitAll_ne_nil (c : Char) : ∀ (l : List Char), splitAll c l ≠ []
  | [] => by simp [splitAll]
  | x :: l => by
    rcases hr : splitAll c l with _ | ⟨hd, tl⟩
    · exact absurd hr (splitAll_ne_nil c l)
    · by_cases hx : x = c <;> simp [splitAll, hr, hx]

/-- Every character of a joined tag list is a separator or a tag character. -/
theorem mem_serTags (c : Char) :
    ∀ (ts : List String), c ∈ serTags ts → c = ',' ∨ ∃ t ∈ ts, c ∈ t.data
  | [], h => absurd h (List.not_mem_nil c)
  | [t], h => Or.inr ⟨t, List.mem_singleton.mpr rfl, h⟩
  | t :: t' :: rest, h => by
    rcases List.mem_append.mp h with h1 | h2
    · exact Or.inr ⟨t, List.mem_cons_self t _, h1⟩
    · rcases List.mem_cons.mp h2 with h3 | h4
      · exact Or.inl h3
      · rcases mem_serTags c (t' :: rest) h4 with h5 | ⟨u, hu, hcu⟩
        · exact Or.inl h5
        · exact Or.inr ⟨u, List.mem_cons_of_mem t hu, hcu⟩

/-- A good step's line contains no line-separator characters. -/
theorem serLine_chars (s : MergeStep) (hs : goodStep s) :
    ∀ c ∈ serLine s, c ≠ '\x0a' ∧ c ≠ '\x0d' := by
  obtain ⟨ht, ho, htags⟩ := hs
  intro c hc
  rcases List.mem_append.mp hc with h1 | h2
  · rcases List.mem_append.mp h1 with h1a | h1b
    · exact ⟨(ht c h1a).2.1, (ht c h1a).2.2⟩
    · rcases List.mem_cons.mp h1b with h5 | h6
      · subst h5
        exact ⟨by decide, by decide⟩
      · exact ⟨(ho c h6).2.1, (ho c h6).2.2⟩
  · rcases List.mem_cons.mp h2 with h5 | h6
    · subst h5
      exact ⟨by decide, by decide⟩
    · rcases mem_serTags c s.tags_created h6 with h7 | ⟨u, hu, hcu⟩
      · subst h7
        exact ⟨by decide, by decide⟩
      · exact ⟨((htags u hu).2 c hcu).2.1, ((htags u hu).2 c hcu).2.2⟩

/-- Stripping a carriage return from a line that has none is the identity. -/
theorem stripCR_eq_self (l : List Char) (h : ∀ c ∈ l, c ≠ '\x0d') : stripCR l = l := by
  unfold stripCR
  by_cases hl : l.getLast? = some '\x0d'
  · exfalso
    obtain ⟨hne, heq⟩ := List.mem_getLast?_eq_getLast (Option.mem_def.mpr hl)
    have hm : ('\x0d' : Char) ∈ l := by
      rw [heq]
      exact List.getLast_mem hne
    exact h _ hm rfl
  · simp [hl]

/-- Splitting the file into lines peels one newline-free line off the front. -/
theorem rustLines_cons (a r : List Char) (ha : ('\x0a' : Char) ∉ a) :
    rustLines (a ++ '\x0a' :: r) = stripCR a :: rustLines r := by
  unfold rustLines
  rw [splitAll_append '\x0a' a r ha]
  obtain ⟨hd, tl, heq⟩ := List.exists_cons_of_ne_nil (splitAll_ne_nil '\x0a' r)
  rw [heq]
  rw [List.getLast?_cons_cons]
  by_cases hlast : (hd :: tl).getLast? = some ([] : List Char)
  · rw [if_pos hlast, if_pos hlast, List.dropLast_cons₂]
    simp
  · rw [if_neg hlast, if_neg hlast]
    simp

/-- The file written for `s :: rest` is `s`'s line, a newline, then the rest. -/
theorem save_state_cons (s : MergeStep) (rest : List MergeStep) :
    save_state (s :: rest) = serLine s ++ '\x0a' :: save_state rest := by
  simp [save_state]

/-- Parsing the joined tag list of good tags restores them exactly. -/
theorem splitAll_serTags :
    ∀ (ts : List String), (∀ t ∈ ts, goodTag t) →
      ((splitAll ',' (serTags ts)).filter (fun seg => seg ≠ [])).map String.mk = ts
  | [], _ => rfl
  | [t], hg => by
    have ht := hg t (List.mem_singleton.mpr rfl)
    have hnc : (',' : Char) ∉ t.data := fun hm => ((ht.2 ',' hm).1 rfl)
    show ((splitAll ',' t.data).filter (fun seg => seg ≠ [])).map String.mk = [t]
    rw [splitAll_single ',' t.data hnc]
    simp [List.filter, ht.1]
  | t :: t' :: rest, hg => by
    have ht := hg t (List.mem_cons_self t _)
    have hnc : (',' : Char) ∉ t.data := fun hm => ((ht.2 ',' hm).1 rfl)
    have ih := splitAll_serTags (t' :: rest) (fun u hu => hg u (List.mem_cons_of_mem t hu))
    show ((splitAll ',' (t.data ++ ',' :: serTags (t' :: rest))).filter
        (fun seg => seg ≠ [])).map String.mk = t :: t' :: rest
    rw [splitAll_append ',' t.data _ hnc]
    simp at ih
    simp [List.filter_cons, ht.1, ih]

/-- Parsing the line written for a good step restores the step exactly. -/
theorem parseLine_serLine (s : MergeStep) (hs : goodStep s) :
    parseLine (serLine s) = some s := by
  obtain ⟨ht, ho, htags⟩ := hs
  have hsp1 : (' ' : Char) ∉ s.target_branch.data := fun hm => (ht ' ' hm).1 rfl
  have hsp2 : (' ' : Char) ∉ s.original_sha.data := fun hm => (ho ' ' hm).1 rfl
  have h1 : serLine s
      = s.target_branch.data
        ++ ' ' :: (s.original_sha.data ++ ' ' :: serTags s.tags_created) := by
    simp [serLine]
  rw [show parseLine (serLine s)
      = parseLine (s.target_branch.data
          ++ ' ' :: (s.original_sha.data ++ ' ' :: serTags s.tags_created)) from by rw [h1]]
  simp only [parseLine, splitFirst_append ' ' _ _ hsp1, splitFirst_append ' ' _ _ hsp2]
  rw [splitAll_serTags s.tags_created htags]

/-- Loading the file written for a history of good steps restores it. -/
theorem load_save_aux :
    ∀ (hist : List MergeStep), (∀ s ∈ hist, goodStep s) →
      parseLines (rustLines (save_state hist)) = some hist
  | [], _ => rfl
  | s :: rest, hg => by
    have hgs := hg s (List.mem_cons_self s rest)
    have hchars := serLine_chars s hgs
    have hnl : ('\x0a' : Char) ∉ serLine s := fun hm => (hchars _ hm).1 rfl
    have hcr : ∀ c ∈ serLine s, c ≠ '\x0d' := fun c hm => (hchars c hm).2
    have ih := load_save_aux rest (fun u hu => hg u (List.mem_cons_of_mem s hu))
    rw [save_state_cons, rustLines_cons _ _ hnl, stripCR_eq_self _ hcr]
    simp [parseLines, parseLine_serLine s hgs, ih]

/-- C4: persisting any history whose branch and SHA fields are free of
delimiter-breaking characters and whose tags are non-empty and free of
delimiter-breaking characters (empty tag lists included) with `save_state`,
then reading it back with `load_state`, restores the history field-for-field. -/
theorem c4_log_roundtrip (hist : List MergeStep) (hg : ∀ s ∈ hist, goodStep s) :
    load_state (some (save_state hist)) = some hist := by
  show parseLines (rustLines (save_state hist)) = some hist
  exact load_save_aux hist hg

/-- Witness for C4 on a history with an empty and a two-element tag list. -/
theorem c4_witness :
    (∀ s ∈ wHistTags, goodStep s) ∧
    load_state (some (save_state wHistTags)) = some wHistTags := by
  have hg : ∀ s ∈ wHistTags, goodStep s := by decide
  exact ⟨hg, c4_log_roundtrip wHistTags hg⟩

end Tranche
